import Mathlib

/-!
Shallow embedding of the live-conversation audio/transcript pipeline of
`src/components/LiveConversation.tsx` and the API service layer of
`src/services/geminiService.ts`.

Strings are modelled as `List Char` (JavaScript strings are sequences of
code units; all operations used by the source are per-character).
Real-valued quantities (audio clock times, durations, playback rates,
floating-point samples) are modelled as rationals: every arithmetic
operation the source performs on them (multiplication and division by the
power of two 32768, max, addition) is exact.
-/

/-- JavaScript strings, modelled as lists of characters. -/
abbrev Str := List Char

/-- A word character in the sense of the JavaScript regular-expression
class `\w` (and hence of the `\b` boundary assertion): ASCII letters,
digits, and the underscore. -/
def isWordChar (c : Char) : Bool := c.isAlphanum || c == '_'

/-- JavaScript `String.prototype.trim`, restricted to the ASCII whitespace
characters recognised by `Char.isWhitespace`: drop leading and trailing
whitespace. -/
def trimStr (s : Str) : Str :=
  ((s.dropWhile Char.isWhitespace).reverse.dropWhile Char.isWhitespace).reverse

/-- Whether the string has at least one non-whitespace character. -/
def hasNonWs (s : Str) : Bool := s.any (fun c => !c.isWhitespace)

/-! ## The profanity filter (`filterProfanity`, LiveConversation.tsx lines 37-46)

The source builds, for each word `w` of `SFW_PROFANITY_LIST`, the regular
expression `\bw\b` with flags `gi`, and replaces every match with a run of
asterisks of the same length.  `replaceGo` is a direct left-to-right
scanner for that global case-insensitive whole-word replacement: `prev`
records whether the character immediately before the current position is a
word character (so that the leading `\b` can be decided), and a match
additionally requires the character after the matched word to be absent or
a non-word character (the trailing `\b`). -/

/-- Case-insensitive whole-word match of `w` (given in lowercase) at the
head of `s`: the first `w.length` characters of `s` lowercase to `w`, and
the following character, if any, is not a word character. -/
def ciMatch (w s : Str) : Bool :=
  ((s.take w.length).map Char.toLower == w) &&
    (match s.drop w.length with
     | [] => true
     | c :: _ => !isWordChar c)

/-- Left-to-right scanner for `String.prototype.replace` with the regular
expression `\bw\b` and flags `gi`, replacement `'*'.repeat(w.length)`. -/
def replaceGo (w : Str) : Bool → Str → Str
  | _, [] => []
  | prev, c :: rest =>
    if !prev && ciMatch w (c :: rest) then
      List.replicate w.length '*' ++ replaceGo w true (rest.drop (w.length - 1))
    else
      c :: replaceGo w (isWordChar c) rest
termination_by _ s => s.length
decreasing_by
  · simp [List.length_drop]; omega
  · simp

/-- One pass of the source's per-word replacement: the scan starts at the
beginning of the string, where the leading `\b` holds vacuously. -/
def replaceWord (w : Str) (s : Str) : Str := replaceGo w false s

/-- The source's `SFW_PROFANITY_LIST` (LiveConversation.tsx line 37). -/
def SFW_PROFANITY_LIST : List Str :=
  ["darn".toList, "heck".toList, "gosh".toList, "shoot".toList]

/-- The source's `filterProfanity` (LiveConversation.tsx lines 39-46): apply the
whole-word case-insensitive replacement for each listed word in order,
each pass operating on the output of the previous one. -/
def filterProfanity (s : Str) : Str :=
  SFW_PROFANITY_LIST.foldl (fun acc w => replaceWord w acc) s

/-! ### Specification-level view of the filter

`runsOf` decomposes a string into its maximal runs of characters of equal
word-character class.  `specFilter` replaces exactly those runs that are
whole words case-insensitively equal to a listed profanity by a run of
asterisks of the same length, leaving everything else untouched.  The
theorem for claim C8 proves `filterProfanity` equal to this one-pass
description. -/

/-- Dropping a prefix never lengthens a list. -/
theorem length_dropWhile_le {α : Type} (p : α → Bool) (l : List α) :
    (l.dropWhile p).length ≤ l.length := by
  induction l with
  | nil => simp
  | cons x xs ih =>
    by_cases h : p x <;> simp [List.dropWhile_cons, h] <;> omega

/-- Maximal runs of characters of equal `isWordChar` class. -/
def runsOf : Str → List Str
  | [] => []
  | c :: rest =>
    (c :: rest.takeWhile (fun d => isWordChar d == isWordChar c)) ::
      runsOf (rest.dropWhile (fun d => isWordChar d == isWordChar c))
termination_by s => s.length
decreasing_by
  simp
  exact Nat.lt_succ_of_le (length_dropWhile_le _ _)

/-- Whether a run is a whole word equal, ignoring case, to one of the
listed profanities. -/
def runMatchesAny (ws : List Str) (run : Str) : Bool :=
  ws.any (fun w => run.map Char.toLower == w)

/-- One-pass specification of the filter over the run decomposition. -/
def specFilter (s : Str) : Str :=
  ((runsOf s).map (fun run =>
    if runMatchesAny SFW_PROFANITY_LIST run then List.replicate run.length '*'
    else run)).flatten

/-- One word's replacement at the level of a single run. -/
def replOne (w : Str) (run : Str) : Str :=
  if run.map Char.toLower == w then List.replicate run.length '*' else run

/-- A homogeneous non-empty run whose characters all have word-character
class `b`. -/
def HomRun (b : Bool) (r : Str) : Prop := r ≠ [] ∧ ∀ c ∈ r, isWordChar c = b

/-- The run list is empty or starts with a non-word run. -/
def headNonWord : List Str → Prop
  | [] => True
  | r :: _ => HomRun false r

/-- A list of homogeneous non-empty runs in which no word run directly
follows another word run (runs of word characters are maximal). -/
def goodRuns : List Str → Prop
  | [] => True
  | r :: rs => (HomRun false r ∨ (HomRun true r ∧ headNonWord rs)) ∧ goodRuns rs

/-- The position right after a candidate match is a word boundary: either
the end of the string or a non-word character. -/
def BoundaryOK : Str → Prop
  | [] => True
  | d :: _ => isWordChar d = false

/-! ## Transcript aggregation (`onmessage`, LiveConversation.tsx lines 164-224)

`textStep` embeds the `setCurrentTurn` updater (lines 170-204): given the
pending turn state and one server message it returns the new pending state
together with the list of transcript entries appended by this message, in
order. -/

/-- A grounding citation, kept abstract: the aggregator only ever
concatenates lists of them. -/
structure GroundingChunk where
  uri : Str
  title : Str
deriving DecidableEq, Repr

/-- Speaker tag of a transcript entry. -/
inductive Speaker where
  | user
  | model
deriving DecidableEq, Repr

/-- One finalized transcript entry (`TranscriptEntry`, lines 66-70). -/
structure TranscriptEntry where
  speaker : Speaker
  text : Str
  sources : Option (List GroundingChunk)
deriving DecidableEq, Repr

/-- The pending turn state (`currentTurn`, line 86). -/
structure CurrentTurn where
  user : Str
  model : Str
  modelSources : List GroundingChunk
deriving DecidableEq, Repr

/-- The initial pending turn: all fields empty. -/
def emptyTurn : CurrentTurn := ⟨[], [], []⟩

/-- The fields of a `LiveServerMessage` that the handler reads:
`inputTranscription.text`, `outputTranscription.text`, `turnComplete`,
`groundingMetadata.groundingChunks`, the inline audio chunk (represented
by its decoded duration in seconds), and `interrupted`. -/
structure ServerMessage where
  inputText : Option Str
  outputText : Option Str
  turnComplete : Bool
  sources : Option (List GroundingChunk)
  audioDuration : Option ℚ
  interrupted : Bool

/-- The `setCurrentTurn` updater (lines 170-204): accumulate sources; if
output text arrives while user text is pending, finalize the user text
(trim, drop if empty, filter profanity); append the new input/output
fragments; on `turnComplete` finalize non-empty trimmed user text the same
way and finalize the model text whenever it is a non-empty string, then
reset the pending turn. Returns the new pending turn and the entries
appended to the transcript. -/
def textStep (t : CurrentTurn) (m : ServerMessage) : CurrentTurn × List TranscriptEntry :=
  let t1 : CurrentTurn :=
    match m.sources with
    | some ss => { t with modelSources := t.modelSources ++ ss }
    | none => t
  let finUser : Str → List TranscriptEntry := fun pending =>
    if trimStr pending ≠ [] then
      [⟨Speaker.user, filterProfanity (trimStr pending), none⟩]
    else []
  let ups1 : List TranscriptEntry :=
    if m.outputText.isSome ∧ t1.user ≠ [] then finUser t1.user else []
  let t2 : CurrentTurn :=
    if m.outputText.isSome ∧ t1.user ≠ [] then { t1 with user := [] } else t1
  let t3 : CurrentTurn :=
    match m.inputText with
    | some s => { t2 with user := t2.user ++ s }
    | none => t2
  let t4 : CurrentTurn :=
    match m.outputText with
    | some s => { t3 with model := t3.model ++ s }
    | none => t3
  if m.turnComplete then
    let ups2 : List TranscriptEntry :=
      finUser t4.user ++
        (if t4.model ≠ [] then
          [⟨Speaker.model, t4.model, some t4.modelSources⟩]
        else [])
    (emptyTurn, ups1 ++ ups2)
  else
    (t4, ups1)

/-- Run `textStep` over a sequence of messages, accumulating the appended
transcript entries in order. -/
def runText (t : CurrentTurn) : List ServerMessage → CurrentTurn × List TranscriptEntry
  | [] => (t, [])
  | m :: ms =>
    let (t1, ups) := textStep t m
    let (t2, rest) := runText t1 ms
    (t2, ups ++ rest)

/-! ## Playback scheduling (lines 96-133 and 206-219)

The playback clock is the output `AudioContext`'s `currentTime`; the
`nextStartTimeRef` cursor and the set of live `AudioBufferSourceNode`s are
the scheduler state.  A scheduled buffer is recorded with its computed
start time, its duration in seconds, and the playback rate applied to
it. -/

/-- One scheduled audio buffer: computed start time, duration (seconds at
rate 1), and the playback rate in effect when it was scheduled. -/
structure ScheduledBuffer where
  start : ℚ
  duration : ℚ
  rate : ℚ
deriving DecidableEq, Repr

/-- Scheduler state: the `nextStartTimeRef` cursor, the set of scheduled
sources (`sourcesRef`), whether the output audio context is running (as
opposed to suspended), and the `isPaused` flag. -/
structure PlaybackState where
  nextStart : ℚ
  activeSources : List ScheduledBuffer
  ctxRunning : Bool
  isPaused : Bool
deriving DecidableEq, Repr

/-- The scheduler state right after the output context is created:
`nextStartTimeRef` is 0, no sources, context running, not paused. -/
def initialPlayback : PlaybackState := ⟨0, [], true, false⟩

/-- The audio branch of `onmessage` (lines 206-219): clamp the cursor to
the current clock time, start the buffer there, and advance the cursor by
the buffer's duration divided by the playback rate in effect. -/
def scheduleAudio (p : PlaybackState) (now dur rate : ℚ) : PlaybackState :=
  let ns := max p.nextStart now
  { p with
    nextStart := ns + dur / rate
    activeSources := p.activeSources ++ [⟨ns, dur, rate⟩] }

/-- The source's `handleStopPlayback` (lines 123-133): stop every live source, clear
the set, reset the cursor to 0, and resume the context (clearing the
paused flag) if it was suspended, else just clear the paused flag. -/
def handleStopPlayback (p : PlaybackState) : PlaybackState :=
  { p with
    activeSources := []
    nextStart := 0
    ctxRunning := true
    isPaused := false }

/-- The source's `handlePauseResume` (lines 114-121): suspend a running context and set
the paused flag, or resume a suspended one and clear it. -/
def handlePauseResume (p : PlaybackState) : PlaybackState :=
  if p.ctxRunning then { p with ctxRunning := false, isPaused := true }
  else { p with ctxRunning := true, isPaused := false }

/-- One buffer arrival: the clock time at which the handler runs, the
decoded buffer duration, and the playback rate in effect. -/
structure Arrival where
  now : ℚ
  duration : ℚ
  rate : ℚ
deriving DecidableEq, Repr

/-- Feed a sequence of audio buffers to the scheduler in arrival order. -/
def runSchedule (p : PlaybackState) : List Arrival → PlaybackState
  | [] => p
  | a :: rest => runSchedule (scheduleAudio p a.now a.duration a.rate) rest

/-- The whole component state touched by `onmessage`: pending turn,
transcript log, and scheduler state. -/
structure LiveState where
  turn : CurrentTurn
  transcript : List TranscriptEntry
  playback : PlaybackState

/-- The full `onmessage` handler (lines 164-224): run the transcript
update, then schedule the inline audio chunk if present, then flush
playback if the message carries `interrupted`. -/
def onmessage (s : LiveState) (m : ServerMessage) (now rate : ℚ) : LiveState :=
  let tu := textStep s.turn m
  let s1 : LiveState := { s with turn := tu.1, transcript := s.transcript ++ tu.2 }
  let s2 : LiveState :=
    match m.audioDuration with
    | some dur => { s1 with playback := scheduleAudio s1.playback now dur rate }
    | none => s1
  if m.interrupted then { s2 with playback := handleStopPlayback s2.playback } else s2

/-! ## PCM frame encoding and decoding (lines 153-158 and 25-34)

The capture callback runs `int16[i] = inputData[i] * 32768` on each
floating-point sample.  Assignment into a JavaScript `Int16Array` applies
the ECMAScript `ToInt16` conversion: truncate toward zero, then reduce
modulo 2^16 into the signed 16-bit range.  `decodeAudioData` divides each
16-bit sample by 32768.  Multiplication and division by 32768 are exact in
binary floating point, so rationals model the data path exactly. -/

/-- ECMAScript number-to-integer truncation (toward zero). -/
def jsTrunc (q : ℚ) : ℤ := if 0 ≤ q then ⌊q⌋ else -⌊-q⌋

/-- ECMAScript `ToInt16`: reduce an integer modulo 2^16 into
[-32768, 32767]. -/
def toInt16 (i : ℤ) : ℤ :=
  if 32768 ≤ i % 65536 then i % 65536 - 65536 else i % 65536

/-- The per-sample transform of the `onaudioprocess` capture callback
(line 157): `int16[i] = inputData[i] * 32768`. -/
def encodeSample (s : ℚ) : ℤ := toInt16 (jsTrunc (s * 32768))

/-- The capture callback applied to one block of samples: a pure
elementwise map. -/
def encodeBlock (l : List ℚ) : List ℤ := l.map encodeSample

/-- The per-sample transform of `decodeAudioData` (line 31):
`channelData[i] = dataInt16[i] / 32768.0`. -/
def decodeSample (i : ℤ) : ℚ := (i : ℚ) / 32768

/-- The source's `decodeAudioData` applied to one frame of 16-bit samples. -/
def decodeBlock (l : List ℤ) : List ℚ := l.map decodeSample

/-- JavaScript `Math.round` (round half toward positive infinity), the
operation the specification text ascribes to the encoder. -/
def roundJs (q : ℚ) : ℤ := ⌊q + 1/2⌋

/-- The encoder as the specification text describes it:
`round(sample * 32768)` followed by the same 16-bit wraparound. -/
def specEncodeSample (s : ℚ) : ℤ := toInt16 (roundJs (s * 32768))

/-! ## Generic API retry (`withRetry`, geminiService.ts lines 15-35)

The loop retries while the error's string form contains `'429'` or
`'500'` and fewer than `maxRetries` retries have happened, sleeping
`initialDelay * 2^(retries-1) + random()*1000` milliseconds before each
retry.  The model takes the sequence of attempt outcomes and the sequence
of jitter draws as inputs and returns the final outcome together with the
list of delays slept, in order. -/

/-- JavaScript `String.prototype.startsWith` on character lists. -/
def strStartsWith : Str → Str → Bool
  | [], _ => true
  | _ :: _, [] => false
  | a :: as, b :: bs => a == b && strStartsWith as bs

/-- JavaScript `String.prototype.includes`: `needle` occurs as a
contiguous substring of the second argument. -/
def strIncludes (needle : Str) : Str → Bool
  | [] => strStartsWith needle []
  | c :: rest => strStartsWith needle (c :: rest) || strIncludes needle rest

/-- The retry predicate (line 22): the error's string form contains
`'429'` or `'500'`. -/
def isRetryable (e : Str) : Bool :=
  strIncludes "429".toList e || strIncludes "500".toList e

/-- The retry loop with `remaining = maxRetries - retries` retries left.
Attempt `i` is the `(i+1)`-th call of `apiCall`; on a retryable error with
retries left, record the backoff delay for retry number `i+1` and
continue, otherwise rethrow. -/
def retryAux {α : Type} (attempts : Nat → Except Str α) (jitter : Nat → ℚ)
    (maxRetries : Nat) (initialDelay : ℚ) : Nat → Except Str α × List ℚ
  | 0 =>
    (match attempts maxRetries with
     | .ok v => .ok v
     | .error e => .error e, [])
  | r + 1 =>
    let i := maxRetries - (r + 1)
    match attempts i with
    | .ok v => (.ok v, [])
    | .error e =>
      if isRetryable e then
        let rec' := retryAux attempts jitter maxRetries initialDelay r
        (rec'.1, (initialDelay * 2 ^ i + jitter (i + 1)) :: rec'.2)
      else (.error e, [])

/-- The source's `withRetry` with its default arguments `maxRetries = 3`,
`initialDelay = 2000`: run up to 4 attempts. -/
def withRetry {α : Type} (attempts : Nat → Except Str α) (jitter : Nat → ℚ) :
    Except Str α × List ℚ :=
  retryAux attempts jitter 3 2000 3

/-! ## Chat service state (`startChat` / `sendMessageToChat`,
geminiService.ts lines 161-185) -/

/-- A live chat session, identified by the configuration it was created
with (grounding enabled or not). -/
structure ChatSession where
  useGrounding : Bool
deriving DecidableEq, Repr

/-- The module-level mutable `chat` variable (line 161). -/
structure ChatServiceState where
  chat : Option ChatSession
deriving DecidableEq, Repr

/-- The state at module load: `chat = null`. -/
def initialChatServiceState : ChatServiceState := ⟨none⟩

/-- The source's `startChat` (lines 163-177): unconditionally replace the session. -/
def startChat (useGrounding : Bool) (_st : ChatServiceState) : ChatServiceState :=
  ⟨some ⟨useGrounding⟩⟩

/-- The source's `sendMessageToChat` (lines 180-185): throw if no session exists,
otherwise forward the message to the current session through the abstract
`sendMessageStream` of the SDK (passed in as `sendStream`). -/
def sendMessageToChat {α : Type} (st : ChatServiceState) (message : Str)
    (sendStream : ChatSession → Str → α) : Except Str α :=
  match st.chat with
  | none => .error "Chat not initialized. Call startChat first.".toList
  | some c => .ok (sendStream c message)

/-- The operations of a session that can touch the module-level chat
state: `startChat` calls, and everything else (which leaves it alone). -/
inductive ChatOp where
  | start (useGrounding : Bool)
  | other
deriving DecidableEq, Repr

/-- Run a sequence of operations against the chat service state. -/
def runChatOps (st : ChatServiceState) : List ChatOp → ChatServiceState
  | [] => st
  | .start g :: rest => runChatOps (startChat g st) rest
  | .other :: rest => runChatOps st rest

/-! ## Helper lemmas -/

/-- A state left by `runChatOps` keeps a session once one exists. -/
theorem runChatOps_some (ops : List ChatOp) :
    ∀ (st : ChatServiceState) (c : ChatSession), st.chat = some c →
      ∃ d, (runChatOps st ops).chat = some d := by
  induction ops with
  | nil => exact fun st c h => ⟨c, h⟩
  | cons op rest ih =>
    intro st c h
    cases op with
    | start g => exact ih (startChat g st) ⟨g⟩ rfl
    | other => exact ih st c h

/-- Running `runChatOps` leaves the state alone when no `startChat` occurs. -/
theorem runChatOps_no_start (st : ChatServiceState) (ops : List ChatOp)
    (h : ∀ g, ChatOp.start g ∉ ops) : runChatOps st ops = st := by
  induction ops with
  | nil => rfl
  | cons op rest ih =>
    cases op with
    | start g => exact absurd (List.mem_cons_self _ _) (h g)
    | other =>
      exact ih (fun g hg => h g (List.mem_cons_of_mem _ hg))

/-- After any operation sequence containing a `startChat`, a session
exists. -/
theorem runChatOps_start_some (ops : List ChatOp) :
    ∀ (st : ChatServiceState), (∃ g, ChatOp.start g ∈ ops) →
      ∃ d, (runChatOps st ops).chat = some d := by
  induction ops with
  | nil => rintro st ⟨g, hg⟩; cases hg
  | cons op rest ih =>
    intro st h
    cases op with
    | start g => exact runChatOps_some rest (startChat g st) ⟨g⟩ rfl
    | other =>
      obtain ⟨g, hg⟩ := h
      rcases List.mem_cons.mp hg with hEq | hMem
      · cases hEq
      · exact ih st ⟨g, hMem⟩

/-! ## Claim C9 -/

/-- C9: `handleStopPlayback` always leaves the output context running and
the paused flag cleared; in particular, invoked while the context is
suspended it resumes it, so after any stop/flush the session is
un-paused. -/
theorem handleStopPlayback_unpauses (p : PlaybackState) :
    ((handleStopPlayback p).isPaused = false ∧ (handleStopPlayback p).ctxRunning = true) ∧
    (p.ctxRunning = false →
      (handleStopPlayback p).ctxRunning = true ∧ (handleStopPlayback p).isPaused = false) := by
  simp [handleStopPlayback]

/-- Witness for C9: stopping right after a pause (which suspends the
running initial context) resumes the clock and clears the flag. -/
theorem handleStopPlayback_unpauses_witness :
    ((handleStopPlayback (handlePauseResume initialPlayback)).isPaused = false ∧
      (handleStopPlayback (handlePauseResume initialPlayback)).ctxRunning = true) ∧
    ((handlePauseResume initialPlayback).ctxRunning = false →
      (handleStopPlayback (handlePauseResume initialPlayback)).ctxRunning = true ∧
      (handleStopPlayback (handlePauseResume initialPlayback)).isPaused = false) :=
  handleStopPlayback_unpauses (handlePauseResume initialPlayback)

/-! ## Claim C10 -/

/-- C10: any `sendMessageToChat` call in a session that has not executed
`startChat` fails with the dedicated error; once some `startChat` has
run, the call forwards the message to the current chat session. -/
theorem sendMessageToChat_spec {α : Type} (f : ChatSession → Str → α)
    (msg : Str) (ops : List ChatOp) :
    ((∀ g, ChatOp.start g ∉ ops) →
      sendMessageToChat (runChatOps initialChatServiceState ops) msg f =
        .error "Chat not initialized. Call startChat first.".toList) ∧
    ((∃ g, ChatOp.start g ∈ ops) →
      ∃ c, (runChatOps initialChatServiceState ops).chat = some c ∧
        sendMessageToChat (runChatOps initialChatServiceState ops) msg f = .ok (f c msg)) := by
  constructor
  · intro h
    rw [runChatOps_no_start _ _ h]
    rfl
  · intro h
    obtain ⟨d, hd⟩ := runChatOps_start_some ops initialChatServiceState h
    refine ⟨d, hd, ?_⟩
    simp [sendMessageToChat, hd]

/-- Witness for C10: a session that only ran unrelated service calls gets
the error; after `startChat` the message is forwarded. -/
theorem sendMessageToChat_spec_witness :
    sendMessageToChat (runChatOps initialChatServiceState [ChatOp.other])
        "hi".toList (fun _ m => m.length) =
      .error "Chat not initialized. Call startChat first.".toList :=
  (sendMessageToChat_spec (fun _ m => m.length) "hi".toList [ChatOp.other]).1
    (by intro g hg; simp [List.mem_cons] at hg)

/-! ## Claim C4 -/

/-- Counterexample for C4 as stated: with the playback clock at time 5,
`handleStopPlayback` resets `nextStartTimeRef` to 0, not to the current
clock time 5 — the function never reads the clock. -/
theorem handleStopPlayback_nextStart_not_clock :
    (handleStopPlayback ⟨10, [⟨0, 2, 1⟩], true, false⟩).nextStart = 0 ∧
      (0 : ℚ) ≠ 5 := by
  exact ⟨rfl, by norm_num⟩

/-- C4 (amended): stop/flush empties the set of playing sources, discards
the pending schedule by resetting `nextStart` to 0, and because every
later scheduling takes the maximum of the cursor and the clock, a buffer
submitted at any clock time `now` at or after the stop starts exactly at
`now` — at or after the stop time, not at the previously computed
`nextStart`. -/
theorem handleStopPlayback_flush (p : PlaybackState) (stopT now dur rate : ℚ)
    (h0 : 0 ≤ stopT) (h1 : stopT ≤ now) :
    (handleStopPlayback p).activeSources = [] ∧
    (handleStopPlayback p).nextStart = 0 ∧
    ∀ b ∈ (scheduleAudio (handleStopPlayback p) now dur rate).activeSources,
      b.start = now ∧ stopT ≤ b.start := by
  refine ⟨rfl, rfl, ?_⟩
  intro b hb
  have hmax : max (0 : ℚ) now = now := max_eq_right (le_trans h0 h1)
  simp only [scheduleAudio, handleStopPlayback, List.nil_append,
    List.mem_singleton] at hb
  subst hb
  simp [hmax, h1]

/-- Witness for C4: stop at clock time 1, then a buffer arriving at clock
time 2 starts at 2. -/
theorem handleStopPlayback_flush_witness :
    (handleStopPlayback initialPlayback).activeSources = [] ∧
    (handleStopPlayback initialPlayback).nextStart = 0 ∧
    ∀ b ∈ (scheduleAudio (handleStopPlayback initialPlayback) 2 1 1).activeSources,
      b.start = 2 ∧ (1 : ℚ) ≤ b.start :=
  handleStopPlayback_flush initialPlayback 1 2 1 1 (by norm_num) (by norm_num)

/-! ## Claim C7 -/

/-- C7: a pure `interrupted` server event flushes the Playback Scheduler
and leaves the pending user text, pending model text, accumulated source
citations, and the finalized transcript unchanged. -/
theorem interrupted_flushes_playback_only (s : LiveState) (now rate : ℚ)
    (m : ServerMessage) (hIn : m.inputText = none) (hOut : m.outputText = none)
    (hTc : m.turnComplete = false) (hSrc : m.sources = none)
    (hAud : m.audioDuration = none) (hInt : m.interrupted = true) :
    (onmessage s m now rate).turn = s.turn ∧
    (onmessage s m now rate).transcript = s.transcript ∧
    (onmessage s m now rate).playback = handleStopPlayback s.playback := by
  simp [onmessage, textStep, hIn, hOut, hTc, hSrc, hAud, hInt]

/-- Witness for C7: a concrete interrupted event on a concrete state. -/
theorem interrupted_flushes_playback_only_witness :
    (onmessage ⟨⟨"hi".toList, "yo".toList, []⟩, [], ⟨7, [⟨0, 2, 1⟩], true, false⟩⟩
        ⟨none, none, false, none, none, true⟩ 3 1).turn = ⟨"hi".toList, "yo".toList, []⟩ ∧
    (onmessage ⟨⟨"hi".toList, "yo".toList, []⟩, [], ⟨7, [⟨0, 2, 1⟩], true, false⟩⟩
        ⟨none, none, false, none, none, true⟩ 3 1).transcript = [] ∧
    (onmessage ⟨⟨"hi".toList, "yo".toList, []⟩, [], ⟨7, [⟨0, 2, 1⟩], true, false⟩⟩
        ⟨none, none, false, none, none, true⟩ 3 1).playback =
      handleStopPlayback ⟨7, [⟨0, 2, 1⟩], true, false⟩ :=
  interrupted_flushes_playback_only
    ⟨⟨"hi".toList, "yo".toList, []⟩, [], ⟨7, [⟨0, 2, 1⟩], true, false⟩⟩
    3 1 ⟨none, none, false, none, none, true⟩ rfl rfl rfl rfl rfl rfl

/-! ## Claim C1 -/

/-- The non-overlap ordering between consecutively scheduled buffers:
starts are non-decreasing, and the earlier buffer's end time (its start
plus its duration at the playback rate in effect for it) is at most the
later buffer's start. -/
def BufferOrdered (b1 b2 : ScheduledBuffer) : Prop :=
  b1.start ≤ b2.start ∧ b1.start + b1.duration / b1.rate ≤ b2.start

/-- Scheduler invariant: the scheduled buffers are pairwise ordered in
sequence, every scheduled buffer ends no later than the cursor, and every
scheduled buffer has nonnegative duration and positive rate. -/
def SchedInv (p : PlaybackState) : Prop :=
  List.Chain' BufferOrdered p.activeSources ∧
    ∀ b ∈ p.activeSources,
      b.start + b.duration / b.rate ≤ p.nextStart ∧ 0 ≤ b.duration ∧ 0 < b.rate

/-- One scheduling step preserves the scheduler invariant. -/
theorem scheduleAudio_inv (p : PlaybackState) (now dur rate : ℚ)
    (hp : SchedInv p) (hd : 0 ≤ dur) (hr : 0 < rate) :
    SchedInv (scheduleAudio p now dur rate) := by
  obtain ⟨hchain, hends⟩ := hp
  have hdr : 0 ≤ dur / rate := div_nonneg hd (le_of_lt hr)
  have hns : p.nextStart ≤ max p.nextStart now := le_max_left _ _
  constructor
  · rw [scheduleAudio]
    rw [List.chain'_append]
    refine ⟨hchain, List.chain'_singleton _, ?_⟩
    intro x hx y hy
    simp only [List.head?_cons, Option.mem_def, Option.some.injEq] at hy
    subst hy
    have hxmem : x ∈ p.activeSources := List.mem_of_mem_getLast? hx
    obtain ⟨hxend, hxd, hxr⟩ := hends x hxmem
    have hxdr : 0 ≤ x.duration / x.rate := div_nonneg hxd (le_of_lt hxr)
    constructor
    · calc x.start ≤ x.start + x.duration / x.rate := by linarith
        _ ≤ p.nextStart := hxend
        _ ≤ max p.nextStart now := hns
    · exact le_trans hxend hns
  · intro b hb
    rw [scheduleAudio] at hb
    simp only [List.mem_append, List.mem_singleton] at hb
    rcases hb with hb | hb
    · obtain ⟨hxend, hxd, hxr⟩ := hends b hb
      exact ⟨by simp [scheduleAudio]; linarith [le_max_left p.nextStart now], hxd, hxr⟩
    · subst hb
      exact ⟨by simp [scheduleAudio], hd, hr⟩

/-- Feeding a whole arrival sequence preserves the invariant. -/
theorem runSchedule_inv (arrivals : List Arrival) :
    ∀ p : PlaybackState, SchedInv p →
      (∀ a ∈ arrivals, 0 ≤ a.duration ∧ 0 < a.rate) →
      SchedInv (runSchedule p arrivals) := by
  induction arrivals with
  | nil => exact fun p hp _ => hp
  | cons a rest ih =>
    intro p hp hall
    have ha := hall a (List.mem_cons_self _ _)
    exact ih (scheduleAudio p a.now a.duration a.rate)
      (scheduleAudio_inv p a.now a.duration a.rate hp ha.1 ha.2)
      (fun x hx => hall x (List.mem_cons_of_mem _ hx))

/-- C1: for every sequence of audio buffers submitted in arrival order
(each with nonnegative duration and positive playback rate, at arbitrary
clock times), the computed start times are non-decreasing and each
buffer's end time — its start plus its duration at the playback rate in
effect — is at most the next buffer's start time: no two scheduled
buffers overlap. -/
theorem playback_no_overlap (arrivals : List Arrival)
    (h : ∀ a ∈ arrivals, 0 ≤ a.duration ∧ 0 < a.rate) :
    List.Chain' (fun b1 b2 : ScheduledBuffer =>
        b1.start ≤ b2.start ∧ b1.start + b1.duration / b1.rate ≤ b2.start)
      ((runSchedule initialPlayback arrivals).activeSources) := by
  have hinit : SchedInv initialPlayback := by
    constructor
    · exact List.chain'_nil
    · intro b hb; cases hb
  exact (runSchedule_inv arrivals initialPlayback hinit h).1

/-- Witness for C1, the spec's own scenario: three buffers of durations 1,
1/2 and 2 seconds at rate 1 arriving back-to-back are scheduled at 0, 1
and 3/2. -/
theorem playback_no_overlap_witness :
    (∀ a ∈ [Arrival.mk 0 1 1, Arrival.mk 0 (1/2) 1, Arrival.mk 0 2 1],
        0 ≤ a.duration ∧ 0 < a.rate) ∧
    List.Chain' (fun b1 b2 : ScheduledBuffer =>
        b1.start ≤ b2.start ∧ b1.start + b1.duration / b1.rate ≤ b2.start)
      ((runSchedule initialPlayback
          [Arrival.mk 0 1 1, Arrival.mk 0 (1/2) 1, Arrival.mk 0 2 1]).activeSources) :=
  ⟨by intro a ha; fin_cases ha <;> norm_num,
    playback_no_overlap _ (by intro a ha; fin_cases ha <;> norm_num)⟩

/-! ## Claims C3 and C5 -/

/-- Truncation toward zero moves a rational by strictly less than 1. -/
theorem abs_sub_jsTrunc_lt_one (q : ℚ) : |q - jsTrunc q| < 1 := by
  rw [jsTrunc]
  split
  · have h1 := Int.floor_le q
    have h2 := Int.lt_floor_add_one q
    rw [abs_sub_lt_iff]
    constructor <;> linarith
  · have h1 := Int.floor_le (-q)
    have h2 := Int.lt_floor_add_one (-q)
    rw [abs_sub_lt_iff]
    push_cast
    constructor <;> linarith

/-- Truncation toward zero of a rational in [-32768, 32768) lands in the
signed 16-bit range. -/
theorem jsTrunc_mem_int16 (q : ℚ) (h1 : -32768 ≤ q) (h2 : q < 32768) :
    -32768 ≤ jsTrunc q ∧ jsTrunc q ≤ 32767 := by
  rw [jsTrunc]
  split
  · rename_i h0
    have hlo : (0 : ℤ) ≤ ⌊q⌋ := Int.le_floor.mpr (by exact_mod_cast h0)
    have hhi : ⌊q⌋ < 32768 := Int.floor_lt.mpr (by exact_mod_cast h2)
    omega
  · rename_i h0
    push_neg at h0
    have hlo : (0 : ℤ) ≤ ⌊-q⌋ := Int.le_floor.mpr (by push_cast; linarith)
    have hhi : ⌊-q⌋ ≤ 32768 := by
      have : (⌊-q⌋ : ℚ) ≤ 32768 := le_trans (Int.floor_le (-q)) (by linarith)
      exact_mod_cast this
    omega

/-- The conversion `ToInt16` is the identity on the signed 16-bit range. -/
theorem toInt16_id (i : ℤ) (h1 : -32768 ≤ i) (h2 : i ≤ 32767) : toInt16 i = i := by
  rw [toInt16]
  split <;> omega

/-- The conversion `ToInt16` always lands in the signed 16-bit range and is congruent to
its argument modulo 2^16. -/
theorem toInt16_range_congr (i : ℤ) :
    -32768 ≤ toInt16 i ∧ toInt16 i < 32768 ∧ toInt16 i % 65536 = i % 65536 := by
  rw [toInt16]
  split <;> constructor <;> omega

/-- C5 (amended): each output sample of the capture-callback encoder is
the truncation toward zero of `sample * 32768` reduced modulo 2^16 into
the signed 16-bit range (wraparound, not `Math.round`); the whole block
transform is the pure elementwise map of this function. -/
theorem encodeSample_truncates_and_wraps (s : ℚ) (l : List ℚ) :
    (-32768 ≤ encodeSample s ∧ encodeSample s < 32768 ∧
      encodeSample s % 65536 = jsTrunc (s * 32768) % 65536) ∧
    encodeBlock l = l.map encodeSample := by
  exact ⟨toInt16_range_congr (jsTrunc (s * 32768)), rfl⟩

/-- Counterexample for C5 as stated: on the in-range sample 3/65536
(representable exactly in binary floating point), the code truncates
`1.5` to `1`, while `round(sample * 32768)` as claimed would give `2`. -/
theorem encodeSample_not_round :
    encodeSample (3/65536) = 1 ∧ specEncodeSample (3/65536) = 2 ∧ (1 : ℤ) ≠ 2 := by
  have hq : (3/65536 : ℚ) * 32768 = 3/2 := by norm_num
  have hfloor : ⌊(3/2 : ℚ)⌋ = 1 := by
    rw [Int.floor_eq_iff]
    norm_num
  have hround : ⌊(3/2 : ℚ) + 1/2⌋ = 2 := by
    rw [show (3/2 : ℚ) + 1/2 = 2 by norm_num]
    exact_mod_cast Int.floor_intCast 2
  refine ⟨?_, ?_, by norm_num⟩
  · rw [encodeSample, hq, jsTrunc, if_pos (by norm_num : (0:ℚ) ≤ 3/2), hfloor]
    rfl
  · rw [specEncodeSample, hq, roundJs, hround]
    rfl

/-- Counterexample for C3 as stated: the sample 1.0 lies in [-1, 1], but
`1.0 * 32768 = 32768` wraps around to -32768, so the decoded value is
-1.0: the round-trip error is 2, far above one quantization step. -/
theorem pcm_roundtrip_fails_at_one :
    decodeBlock (encodeBlock [1]) = [-1] ∧
      ¬(|(1 : ℚ) - (-1 : ℚ)| ≤ 1/32768) := by
  constructor
  · have h1 : encodeSample 1 = -32768 := by
      rw [encodeSample, show (1 : ℚ) * 32768 = 32768 by norm_num, jsTrunc,
        if_pos (by norm_num : (0:ℚ) ≤ 32768),
        show ⌊(32768 : ℚ)⌋ = 32768 from Int.floor_intCast 32768]
      rfl
    simp [decodeBlock, encodeBlock, h1, decodeSample]
  · rw [abs_of_nonneg (by norm_num : (0:ℚ) ≤ 1 - -1)]
    norm_num

/-- C3 (amended): for every floating-point sample in [-1, 1) — that is,
excluding the right endpoint 1.0, where 16-bit wraparound occurs — the
encode/decode round trip recovers the sample within one quantization
step, ±1/32768. -/
theorem pcm_roundtrip (s : ℚ) (h1 : -1 ≤ s) (h2 : s < 1) :
    |s - decodeSample (encodeSample s)| ≤ 1/32768 := by
  set x : ℚ := s * 32768 with hx
  have hx1 : -32768 ≤ x := by rw [hx]; nlinarith
  have hx2 : x < 32768 := by rw [hx]; nlinarith
  obtain ⟨hr1, hr2⟩ := jsTrunc_mem_int16 x hx1 hx2
  have hid : encodeSample s = jsTrunc x := by
    rw [encodeSample, ← hx]
    exact toInt16_id _ hr1 hr2
  have habs : |x - jsTrunc x| < 1 := abs_sub_jsTrunc_lt_one x
  have hs : s = x / 32768 := by rw [hx]; ring
  have hkey : s - decodeSample (encodeSample s) = (x - jsTrunc x) / 32768 := by
    rw [hid, decodeSample, hs]
    ring
  rw [hkey, abs_div, abs_of_pos (by norm_num : (0:ℚ) < 32768)]
  rw [div_le_div_iff₀ (by norm_num) (by norm_num)]
  nlinarith [abs_nonneg (x - (jsTrunc x : ℚ))]

/-- Witness for C3 (amended): the sample 1/2 is recovered exactly. -/
theorem pcm_roundtrip_witness :
    (-1 ≤ (1/2 : ℚ)) ∧ ((1/2 : ℚ) < 1) ∧
      |(1/2 : ℚ) - decodeSample (encodeSample (1/2))| ≤ 1/32768 :=
  ⟨by norm_num, by norm_num, pcm_roundtrip (1/2) (by norm_num) (by norm_num)⟩

/-! ## Claim C6 -/

/-- Counterexample for C6 as stated: a 503 failure is server-side
transient (5xx), but its string form contains neither "429" nor "500", so
`withRetry` propagates it immediately without a single retry — even
though the very next attempt would have succeeded. -/
theorem withRetry_503_not_retried :
    withRetry (fun i => if i = 0 then .error "503 Service Unavailable".toList
      else .ok (42 : Nat)) (fun _ => 0) =
      (.error "503 Service Unavailable".toList, []) ∧
    isRetryable "503 Service Unavailable".toList = false ∧
    (fun i => if i = 0 then (.error "503 Service Unavailable".toList : Except Str Nat)
      else .ok 42) 1 = .ok 42 :=
  ⟨rfl, by decide, rfl⟩

/-- C6 (amended): a generic call is retried only when the failure's
string form contains "429" or "500" (so 502/503/504 and every other
failure propagate immediately as a terminal failure of that request); a
retryable failure is retried with exponential backoff `2000 * 2^(k-1)`
milliseconds plus the jitter draw before the k-th retry, up to the fixed
bound of 3 retries, after which the last error propagates. -/
theorem withRetry_spec {α : Type} (attempts : Nat → Except Str α) (jitter : Nat → ℚ) :
    (∀ e, attempts 0 = .error e → isRetryable e = false →
        withRetry attempts jitter = (.error e, [])) ∧
    (∀ v, attempts 0 = .ok v → withRetry attempts jitter = (.ok v, [])) ∧
    (∀ e v, attempts 0 = .error e → isRetryable e = true → attempts 1 = .ok v →
        withRetry attempts jitter = (.ok v, [2000 + jitter 1])) ∧
    (∀ e0 e1 e2 e3,
        attempts 0 = .error e0 → attempts 1 = .error e1 →
        attempts 2 = .error e2 → attempts 3 = .error e3 →
        isRetryable e0 = true → isRetryable e1 = true → isRetryable e2 = true →
        withRetry attempts jitter =
          (.error e3, [2000 + jitter 1, 4000 + jitter 2, 8000 + jitter 3])) := by
  refine ⟨?_, ?_, ?_, ?_⟩
  · intro e h0 hr
    simp [withRetry, retryAux, h0, hr]
  · intro v h0
    simp [withRetry, retryAux, h0]
  · intro e v h0 hr h1
    simp [withRetry, retryAux, h0, hr, h1]
  · intro e0 e1 e2 e3 h0 h1 h2 h3 hr0 hr1 hr2
    simp [withRetry, retryAux, h0, h1, h2, h3, hr0, hr1, hr2]
    norm_num

/-- Witness for C6: four consecutive "429" failures with zero jitter give
the last error after retries delayed 2000, 4000 and 8000 milliseconds. -/
theorem withRetry_spec_witness :
    withRetry (fun _ => (.error "429".toList : Except Str Nat)) (fun _ => 0) =
      (.error "429".toList, [2000 + 0, 4000 + 0, 8000 + 0]) :=
  (withRetry_spec (fun _ => (.error "429".toList : Except Str Nat)) (fun _ => 0)).2.2.2
    "429".toList "429".toList "429".toList "429".toList rfl rfl rfl rfl
    (by decide) (by decide) (by decide)

/-! ## Character facts for the filter proofs -/

/-- Character order agrees with the order of the underlying code
points. -/
theorem char_le_iff_toNat (a b : Char) : a ≤ b ↔ a.toNat ≤ b.toNat := by
  rw [Char.le_def]
  simp [UInt32.le_def, BitVec.le_def, UInt32.toNat, Char.toNat]

/-- A code point in [65, 90] is an uppercase letter. -/
theorem isUpper_of_toNat_range (c : Char) (h1 : 65 ≤ c.toNat) (h2 : c.toNat ≤ 90) :
    c.isUpper = true := by
  simp only [Char.isUpper, Bool.and_eq_true, decide_eq_true_eq, ge_iff_le]
  rw [UInt32.le_def, UInt32.le_def]
  simp only [BitVec.le_def]
  exact ⟨h1, h2⟩

/-- A code point in [97, 122] is a lowercase letter. -/
theorem isLower_of_toNat_range (c : Char) (h1 : 97 ≤ c.toNat) (h2 : c.toNat ≤ 122) :
    c.isLower = true := by
  simp only [Char.isLower, Bool.and_eq_true, decide_eq_true_eq, ge_iff_le]
  rw [UInt32.le_def, UInt32.le_def]
  simp only [BitVec.le_def]
  exact ⟨h1, h2⟩

/-- A character whose lowercase form is a lowercase letter is a word
character: it is either that letter itself or its uppercase form. -/
theorem isWordChar_of_toLower (c w0 : Char) (hl : 'a' ≤ w0) (hu : w0 ≤ 'z')
    (h : Char.toLower c = w0) : isWordChar c = true := by
  have hl' : 97 ≤ w0.toNat := (char_le_iff_toNat 'a' w0).mp hl
  have hu' : w0.toNat ≤ 122 := (char_le_iff_toNat w0 'z').mp hu
  rw [Char.toLower] at h
  split at h
  · rename_i hc
    have hup := isUpper_of_toNat_range c hc.1 hc.2
    simp [isWordChar, Char.isAlphanum, Char.isAlpha, hup]
  · subst h
    have hlow := isLower_of_toNat_range c hl' hu'
    simp [isWordChar, Char.isAlphanum, Char.isAlpha, hlow]

/-- Word characters are never whitespace. -/
theorem not_whitespace_of_isWordChar (c : Char) (h : isWordChar c = true) :
    c.isWhitespace = false := by
  cases hws : c.isWhitespace
  · rfl
  · exfalso
    simp only [Char.isWhitespace, Bool.or_eq_true, decide_eq_true_eq] at hws
    rcases hws with ((h1 | h1) | h1) | h1 <;>
      (subst h1; exact absurd h (by decide))

/-- Well-formedness of a filter word: non-empty, all lowercase ASCII
letters.  Each entry of `SFW_PROFANITY_LIST` satisfies it. -/
def WFword (w : Str) : Prop := w ≠ [] ∧ ∀ x ∈ w, 'a' ≤ x ∧ x ≤ 'z'

/-- All four listed profanities are well-formed filter words. -/
theorem sfw_list_wf : ∀ w ∈ SFW_PROFANITY_LIST, WFword w := by
  intro w hw
  simp only [SFW_PROFANITY_LIST, List.mem_cons, List.not_mem_nil, or_false] at hw
  rcases hw with h | h | h | h <;> subst h <;> exact ⟨by decide, by decide⟩

/-- A non-word character can never begin a whole-word match. -/
theorem ciMatch_false_of_head_nonword (w : Str) (hw : WFword w) (c : Char)
    (hc : isWordChar c = false) (s : Str) : ciMatch w (c :: s) = false := by
  obtain ⟨hne, hlet⟩ := hw
  cases w with
  | nil => exact absurd rfl hne
  | cons w0 wt =>
    have hA : (((c :: s).take (w0 :: wt).length).map Char.toLower == (w0 :: wt)) = false := by
      cases hbeq : ((c :: s).take (w0 :: wt).length).map Char.toLower == (w0 :: wt)
      · rfl
      · exfalso
        have heq := eq_of_beq hbeq
        simp only [List.length_cons, List.take_succ_cons, List.map_cons,
          List.cons.injEq] at heq
        have hword := isWordChar_of_toLower c w0
          (hlet w0 (List.mem_cons_self _ _)).1 (hlet w0 (List.mem_cons_self _ _)).2 heq.1
        rw [hword] at hc
        cases hc
    rw [ciMatch, hA, Bool.false_and]

/-! ## Scanner lemmas: how `replaceGo` traverses one run -/

/-- Single-step unfolding of the scanner on a non-empty string. -/
theorem replaceGo_cons (w : Str) (prev : Bool) (c : Char) (rest : Str) :
    replaceGo w prev (c :: rest) =
      if !prev && ciMatch w (c :: rest) then
        List.replicate w.length '*' ++ replaceGo w true (rest.drop (w.length - 1))
      else c :: replaceGo w (isWordChar c) rest := by
  conv_lhs => rw [replaceGo]

/-- The scanner copies a non-word run unchanged (no match can start on a
non-word character) and leaves the boundary state cleared. -/
theorem replaceGo_nonword_run (w : Str) (hw : WFword w) :
    ∀ (r : Str), r ≠ [] → (∀ c ∈ r, isWordChar c = false) →
      ∀ (tail : Str) (prev : Bool),
        replaceGo w prev (r ++ tail) = r ++ replaceGo w false tail := by
  intro r
  induction r with
  | nil => intro h; exact absurd rfl h
  | cons c rest ih =>
    intro _ hall tail prev
    have hc : isWordChar c = false := hall c (List.mem_cons_self _ _)
    have hcm := ciMatch_false_of_head_nonword w hw c hc (rest ++ tail)
    rw [List.cons_append, replaceGo_cons, hcm, Bool.and_false, if_neg (by simp), hc]
    cases rest with
    | nil => rfl
    | cons d rest' =>
      have hrec := ih (by simp) (fun x hx => hall x (List.mem_cons_of_mem _ hx)) tail false
      rw [List.cons_append] at hrec
      rw [List.cons_append, hrec]
      rfl

/-- With the boundary state set (previous character was a word
character), the scanner copies word characters unchanged. -/
theorem replaceGo_wordrun_prev_true (w : Str) :
    ∀ (r : Str), (∀ c ∈ r, isWordChar c = true) → ∀ tail,
      replaceGo w true (r ++ tail) = r ++ replaceGo w true tail := by
  intro r
  induction r with
  | nil => intro _ tail; rfl
  | cons c rest ih =>
    intro hall tail
    have hc : isWordChar c = true := hall c (List.mem_cons_self _ _)
    rw [List.cons_append, replaceGo_cons, Bool.not_true, Bool.false_and,
      if_neg (by simp), hc, ih (fun x hx => hall x (List.mem_cons_of_mem _ hx)) tail,
      List.cons_append]

/-- At a boundary, a word run that case-insensitively equals the filter
word is replaced by asterisks of the word's length and the scan continues
after it. -/
theorem replaceGo_match (w : Str) (hw : WFword w) (r : Str)
    (hm : r.map Char.toLower = w) (tail : Str) (hb : BoundaryOK tail) :
    replaceGo w false (r ++ tail) =
      List.replicate w.length '*' ++ replaceGo w true tail := by
  have hlen : r.length = w.length := by rw [← hm, List.length_map]
  cases r with
  | nil =>
    exfalso
    exact hw.1 (by simpa using hm.symm)
  | cons c r' =>
    have hA : (((c :: r') ++ tail).take w.length).map Char.toLower == w := by
      rw [List.take_left' hlen, hm]
      exact beq_self_eq_true w
    have hdrop : ((c :: r') ++ tail).drop w.length = tail := List.drop_left' hlen
    have hcm : ciMatch w ((c :: r') ++ tail) = true := by
      rw [ciMatch, hA, Bool.true_and, hdrop]
      cases tail with
      | nil => rfl
      | cons d t =>
        have hd : isWordChar d = false := hb
        simp [hd]
    rw [List.cons_append] at hcm
    rw [List.cons_append, replaceGo_cons, hcm, Bool.not_false, Bool.true_and, if_pos rfl]
    congr 1
    have hlen' : r'.length = w.length - 1 := by
      simp only [List.length_cons] at hlen
      omega
    rw [List.drop_left' hlen']

/-- At a boundary, a word run that does not case-insensitively equal the
filter word is copied unchanged (maximality of the run rules out any
whole-word match inside or across it). -/
theorem replaceGo_wordrun_nomatch (w : Str) (hw : WFword w) (r : Str)
    (hr : r ≠ []) (hall : ∀ c ∈ r, isWordChar c = true)
    (hm : ¬(r.map Char.toLower = w)) (tail : Str) (hb : BoundaryOK tail) :
    replaceGo w false (r ++ tail) = r ++ replaceGo w true tail := by
  cases r with
  | nil => exact absurd rfl hr
  | cons c r' =>
    have hcm : ciMatch w ((c :: r') ++ tail) = false := by
      cases hciM : ciMatch w ((c :: r') ++ tail)
      · rfl
      · exfalso
        rw [ciMatch, Bool.and_eq_true] at hciM
        obtain ⟨hA, hB⟩ := hciM
        have hA' := eq_of_beq hA
        by_cases hle : w.length ≤ (c :: r').length
        · rw [List.take_append_of_le_length hle] at hA'
          rcases Nat.lt_or_ge w.length (c :: r').length with hlt | hge
          · have hdr : ((c :: r') ++ tail).drop w.length =
                ((c :: r').drop w.length) ++ tail :=
              List.drop_append_of_le_length hle
            rw [hdr] at hB
            cases hd : (c :: r').drop w.length with
            | nil =>
              rw [List.drop_eq_nil_iff] at hd
              omega
            | cons d t =>
              have hdmem : d ∈ (c :: r') :=
                List.mem_of_mem_drop (by rw [hd]; exact List.mem_cons_self _ _)
              have hdw : isWordChar d = true := hall d hdmem
              rw [hd, List.cons_append] at hB
              simp only [hdw, Bool.not_true] at hB
              cases hB
          · have htake : (c :: r').take w.length = c :: r' := by
              have : w.length = (c :: r').length := Nat.le_antisymm hle hge
              rw [this, List.take_length]
            rw [htake] at hA'
            exact hm hA'
        · push_neg at hle
          have htr : (c :: r').take w.length = c :: r' :=
            List.take_of_length_le (Nat.le_of_lt hle)
          rw [List.take_append_eq_append_take, htr, List.map_append] at hA'
          cases tail with
          | nil =>
            have := congrArg List.length hA'
            simp only [List.take_nil, List.map_nil, List.append_nil, List.length_map,
              List.length_cons] at this
            simp only [List.length_cons] at hle
            omega
          | cons d t =>
            have hd : isWordChar d = false := hb
            have hk : 1 ≤ w.length - (c :: r').length := by
              simp only [List.length_cons] at hle ⊢
              omega
            have hmem : Char.toLower d ∈ w := by
              rw [← hA']
              apply List.mem_append_right
              cases hkk : w.length - (c :: r').length with
              | zero => omega
              | succ k =>
                rw [List.take_succ_cons, List.map_cons]
                exact List.mem_cons_self _ _
            have hbounds := hw.2 (Char.toLower d) hmem
            have hdw : isWordChar d = true :=
              isWordChar_of_toLower d (Char.toLower d) hbounds.1 hbounds.2 rfl
            rw [hdw] at hd
            cases hd
    rw [List.cons_append] at hcm
    have hc : isWordChar c = true := hall c (List.mem_cons_self _ _)
    rw [List.cons_append, replaceGo_cons, hcm, Bool.and_false, if_neg (by simp), hc,
      replaceGo_wordrun_prev_true w r' (fun x hx => hall x (List.mem_cons_of_mem _ hx)) tail,
      List.cons_append]

/-! ## Run-level behaviour of one whole replacement pass -/

/-- A non-word run never case-insensitively equals a filter word. -/
theorem replOne_nonword (w : Str) (hw : WFword w) (r : Str) (hr : HomRun false r) :
    replOne w r = r := by
  rw [replOne]
  cases hbeq : (r.map Char.toLower == w)
  · rfl
  · exfalso
    have heq := eq_of_beq hbeq
    obtain ⟨hne, hall⟩ := hr
    cases r with
    | nil => exact hw.1 (by simpa using heq.symm)
    | cons d t =>
      have hmem : Char.toLower d ∈ w := by
        rw [← heq, List.map_cons]
        exact List.mem_cons_self _ _
      have hbounds := hw.2 (Char.toLower d) hmem
      have hdw : isWordChar d = true :=
        isWordChar_of_toLower d (Char.toLower d) hbounds.1 hbounds.2 rfl
      rw [hall d (List.mem_cons_self _ _)] at hdw
      cases hdw

/-- A run cannot be homogeneous of both classes. -/
theorem not_homRun_both (r : Str) (h1 : HomRun true r) (h2 : HomRun false r) : False := by
  obtain ⟨hne, hall1⟩ := h1
  obtain ⟨_, hall2⟩ := h2
  cases r with
  | nil => exact hne rfl
  | cons c t =>
    have ht := hall1 c (List.mem_cons_self _ _)
    have hf := hall2 c (List.mem_cons_self _ _)
    rw [ht] at hf
    cases hf

/-- A run list starting with a non-word run (or empty) flattens to a
string at a word boundary. -/
theorem boundaryOK_flatten (rs : List Str) (h : headNonWord rs) :
    BoundaryOK rs.flatten := by
  cases rs with
  | nil => trivial
  | cons r rs' =>
    obtain ⟨hne, hall⟩ := h
    cases r with
    | nil => exact absurd rfl hne
    | cons d t =>
      show BoundaryOK (((d :: t) : Str) ++ rs'.flatten)
      exact hall d (List.mem_cons_self _ _)

/-- One `replaceWord` pass over a flattened good run list acts run by
run: it replaces exactly the runs that case-insensitively equal the
filter word. -/
theorem replaceGo_runs (w : Str) (hw : WFword w) :
    ∀ (rs : List Str), goodRuns rs → ∀ (prev : Bool),
      (prev = true → headNonWord rs) →
      replaceGo w prev rs.flatten = (rs.map (replOne w)).flatten := by
  intro rs
  induction rs with
  | nil =>
    intro _ prev _
    simp only [List.flatten_nil, List.map_nil]
    rw [replaceGo]
  | cons r rs' ih =>
    intro hg prev hprev
    obtain ⟨hhead, hg'⟩ := hg
    rw [List.flatten_cons, List.map_cons, List.flatten_cons]
    rcases hhead with hnw | ⟨hwrd, hnext⟩
    · rw [replaceGo_nonword_run w hw r hnw.1 hnw.2 rs'.flatten prev]
      rw [replOne_nonword w hw r hnw]
      rw [ih hg' false (by intro h; cases h)]
    · have hpf : prev = false := by
        cases prev
        · rfl
        · exact absurd (not_homRun_both r hwrd (hprev rfl)) not_false
      subst hpf
      have hbound : BoundaryOK rs'.flatten := by
        apply boundaryOK_flatten
        cases rs' with
        | nil => trivial
        | cons r2 rs2 => exact hnext
      have hihtrue := ih hg' true (fun _ => hnext)
      cases hbeq : (r.map Char.toLower == w)
      · have hmne : ¬(r.map Char.toLower = w) := by
          intro he
          rw [he] at hbeq
          rw [beq_self_eq_true] at hbeq
          cases hbeq
        rw [replaceGo_wordrun_nomatch w hw r hwrd.1 hwrd.2 hmne rs'.flatten hbound]
        rw [replOne, hbeq, if_neg (by simp), hihtrue]
      · have hmeq : r.map Char.toLower = w := eq_of_beq hbeq
        rw [replaceGo_match w hw r hmeq rs'.flatten hbound]
        rw [replOne, hbeq, if_pos rfl, hihtrue]
        have hlen : r.length = w.length := by rw [← hmeq, List.length_map]
        rw [hlen]

/-- Replacing runs by asterisk runs preserves the good-runs shape: an
asterisk run is a non-word run of the same length. -/
theorem goodRuns_map_replOne (w : Str) (hw : WFword w) :
    ∀ (rs : List Str), goodRuns rs → goodRuns (rs.map (replOne w)) := by
  intro rs
  induction rs with
  | nil => intro _; trivial
  | cons r rs' ih =>
    intro hg
    obtain ⟨hhead, hg'⟩ := hg
    refine ⟨?_, ih hg'⟩
    rcases hhead with hnw | ⟨hwrd, hnext⟩
    · left
      rw [replOne_nonword w hw r hnw]
      exact hnw
    · cases hbeq : (r.map Char.toLower == w)
      · right
        rw [replOne, hbeq, if_neg (by simp)]
        refine ⟨hwrd, ?_⟩
        cases rs' with
        | nil => trivial
        | cons r2 rs2 =>
          show HomRun false (replOne w r2)
          rw [replOne_nonword w hw r2 hnext]
          exact hnext
      · left
        rw [replOne, hbeq, if_pos rfl]
        constructor
        · have : r ≠ [] := hwrd.1
          cases r with
          | nil => exact absurd rfl this
          | cons a t => simp
        · intro c hc
          rw [List.eq_of_mem_replicate hc]
          decide

/-- An asterisk run never case-insensitively equals a well-formed filter
word, so later passes leave it unchanged. -/
theorem replOne_replicate_star (w : Str) (hw : WFword w) (n : Nat) :
    replOne w (List.replicate n '*') = List.replicate n '*' := by
  rw [replOne]
  cases hbeq : (List.map Char.toLower (List.replicate n '*') == w)
  · rfl
  · exfalso
    have heq := eq_of_beq hbeq
    rw [List.map_replicate] at heq
    cases n with
    | zero => exact hw.1 (by simpa using heq.symm)
    | succ k =>
      have hmem : Char.toLower '*' ∈ w := by
        rw [← heq]
        exact List.mem_replicate.mpr ⟨by omega, rfl⟩
      have hbounds := hw.2 (Char.toLower '*') hmem
      revert hbounds
      decide

/-- Later passes leave an asterisk run unchanged. -/
theorem foldl_replOne_stars (n : Nat) :
    ∀ (ws : List Str), (∀ w ∈ ws, WFword w) →
      ws.foldl (fun acc w => replOne w acc) (List.replicate n '*') =
        List.replicate n '*' := by
  intro ws
  induction ws with
  | nil => intro _; rfl
  | cons x xs ihx =>
    intro hall
    rw [List.foldl_cons, replOne_replicate_star x (hall x (List.mem_cons_self _ _)) n]
    exact ihx (fun y hy => hall y (List.mem_cons_of_mem _ hy))

/-- Folding all listed words over a single run replaces it exactly when
it case-insensitively equals one of them. -/
theorem foldl_replOne_run (ws : List Str) (hws : ∀ w ∈ ws, WFword w) (r : Str) :
    ws.foldl (fun acc w => replOne w acc) r =
      if runMatchesAny ws r then List.replicate r.length '*' else r := by
  induction ws generalizing r with
  | nil =>
    rw [runMatchesAny]
    simp
  | cons w ws' ih =>
    have hw : WFword w := hws w (List.mem_cons_self _ _)
    have hws' : ∀ x ∈ ws', WFword x := fun x hx => hws x (List.mem_cons_of_mem _ hx)
    rw [List.foldl_cons]
    cases hbeq : (r.map Char.toLower == w)
    · rw [show replOne w r = r by rw [replOne, hbeq]; simp]
      rw [ih hws']
      have hany : runMatchesAny (w :: ws') r = runMatchesAny ws' r := by
        rw [runMatchesAny, runMatchesAny, List.any_cons, hbeq, Bool.false_or]
      rw [hany]
    · have hrepl : replOne w r = List.replicate r.length '*' := by
        rw [replOne, hbeq, if_pos rfl]
      rw [hrepl]
      rw [foldl_replOne_stars r.length ws' hws']
      have hany : runMatchesAny (w :: ws') r = true := by
        rw [runMatchesAny, List.any_cons, hbeq, Bool.true_or]
      rw [hany, if_pos rfl]

/-- The first element surviving `dropWhile` fails the predicate. -/
theorem dropWhile_head_false {α : Type} (p : α → Bool) :
    ∀ (l : List α) (d : α) (t : List α), l.dropWhile p = d :: t → p d = false := by
  intro l
  induction l with
  | nil => intro d t h; cases h
  | cons x xs ih =>
    intro d t h
    by_cases hx : p x = true
    · rw [List.dropWhile_cons, if_pos hx] at h
      exact ih d t h
    · rw [List.dropWhile_cons, if_neg hx] at h
      cases h
      exact Bool.eq_false_iff.mpr hx

/-- The run decomposition flattens back to the original string. -/
theorem flatten_runsOf (s : Str) : (runsOf s).flatten = s := by
  induction s using runsOf.induct with
  | case1 =>
    rw [runsOf]
    rfl
  | case2 c rest ih =>
    rw [runsOf, List.flatten_cons, ih, List.cons_append,
      List.takeWhile_append_dropWhile]

/-- Dropping the run of word characters leaves a string at a word
boundary. -/
theorem boundaryOK_dropWhile (rest : Str) :
    BoundaryOK (rest.dropWhile (fun d => isWordChar d == true)) := by
  induction rest with
  | nil => trivial
  | cons x xs ih =>
    by_cases hx : (isWordChar x == true) = true
    · rw [List.dropWhile_cons, if_pos hx]
      exact ih
    · rw [List.dropWhile_cons, if_neg hx]
      show isWordChar x = false
      cases hxw : isWordChar x
      · rfl
      · exact absurd (by rw [hxw]; rfl) hx

/-- The run decomposition of a string at a word boundary starts with a
non-word run (or is empty). -/
theorem headNonWord_runsOf (l : Str) (hb : BoundaryOK l) : headNonWord (runsOf l) := by
  cases l with
  | nil =>
    rw [runsOf]
    trivial
  | cons d t =>
    rw [runsOf]
    have hd : isWordChar d = false := hb
    show HomRun false (d :: t.takeWhile (fun e => isWordChar e == isWordChar d))
    refine ⟨by simp, ?_⟩
    intro x hx
    rcases List.mem_cons.mp hx with hx | hx
    · rw [hx, hd]
    · have hb2 := @List.mem_takeWhile_imp Char
        (fun e => isWordChar e == isWordChar d) t x hx
      rw [eq_of_beq hb2, hd]

/-- The run decomposition is a good run list: runs are non-empty,
homogeneous, and word runs are maximal. -/
theorem goodRuns_runsOf (s : Str) : goodRuns (runsOf s) := by
  induction s using runsOf.induct with
  | case1 =>
    rw [runsOf]
    trivial
  | case2 c rest ih =>
    rw [runsOf]
    refine ⟨?_, ih⟩
    have hhom : HomRun (isWordChar c)
        (c :: rest.takeWhile (fun d => isWordChar d == isWordChar c)) := by
      refine ⟨by simp, ?_⟩
      intro x hx
      rcases List.mem_cons.mp hx with hx | hx
      · rw [hx]
      · have hb := @List.mem_takeWhile_imp Char
          (fun d => isWordChar d == isWordChar c) rest x hx
        exact eq_of_beq hb
    cases hc : isWordChar c
    · left
      rw [hc] at hhom
      exact hhom
    · right
      rw [hc] at hhom
      exact ⟨hhom, headNonWord_runsOf _ (boundaryOK_dropWhile rest)⟩

/-- The whole profanity filter equals the one-pass run-level
specification: every maximal word run case-insensitively equal to a
listed word becomes a same-length asterisk run, everything else is
untouched. -/
theorem filterProfanity_eq_specFilter (s : Str) : filterProfanity s = specFilter s := by
  have key : ∀ (ws : List Str), (∀ w ∈ ws, WFword w) → ∀ (rs : List Str), goodRuns rs →
      ws.foldl (fun acc w => replaceWord w acc) rs.flatten =
        (ws.foldl (fun acc w => acc.map (replOne w)) rs).flatten := by
    intro ws
    induction ws with
    | nil => intro _ rs _; rfl
    | cons w ws' ih =>
      intro hall rs hg
      have hw : WFword w := hall w (List.mem_cons_self _ _)
      rw [List.foldl_cons, List.foldl_cons]
      rw [show replaceWord w rs.flatten = (rs.map (replOne w)).flatten from
        replaceGo_runs w hw rs hg false (by intro h; cases h)]
      exact ih (fun x hx => hall x (List.mem_cons_of_mem _ hx)) (rs.map (replOne w))
        (goodRuns_map_replOne w hw rs hg)
  have h2 : ∀ (ws : List Str) (rs : List Str),
      ws.foldl (fun acc w => acc.map (replOne w)) rs =
        rs.map (fun r => ws.foldl (fun acc w => replOne w acc) r) := by
    intro ws
    induction ws with
    | nil => intro rs; simp
    | cons w ws' ih =>
      intro rs
      rw [List.foldl_cons, ih, List.map_map]
      rfl
  have h1 : filterProfanity s =
      (SFW_PROFANITY_LIST.foldl (fun acc w => acc.map (replOne w)) (runsOf s)).flatten := by
    rw [filterProfanity]
    conv_lhs => rw [← flatten_runsOf s]
    exact key SFW_PROFANITY_LIST sfw_list_wf (runsOf s) (goodRuns_runsOf s)
  rw [h1, h2, specFilter]
  congr 1
  have hfun : (fun r => SFW_PROFANITY_LIST.foldl (fun acc w => replOne w acc) r) =
      (fun run => if runMatchesAny SFW_PROFANITY_LIST run
        then List.replicate run.length '*' else run) :=
    funext (fun r => foldl_replOne_run SFW_PROFANITY_LIST sfw_list_wf r)
  rw [hfun]

/-! ## Claim C8 -/

/-- C8: before a user Turn is recorded (whether finalized by arriving
output text or by turn completion), its trimmed text is passed through
the profanity filter, which — by the run-level characterisation — replaces
every whole-word, case-insensitive occurrence of a listed word by a run
of asterisks of the same length and nothing else; model Turn text is
recorded verbatim, with no filtering and no trimming. -/
theorem profanity_filter_pipeline :
    (∀ s : Str, filterProfanity s = specFilter s) ∧
    (∀ (t : CurrentTurn) (m : ServerMessage), m.turnComplete = true →
      m.inputText = none → m.outputText = none → m.sources = none →
      (textStep t m).2 =
        (if trimStr t.user ≠ [] then
          [⟨Speaker.user, filterProfanity (trimStr t.user), none⟩] else []) ++
        (if t.model ≠ [] then [⟨Speaker.model, t.model, some t.modelSources⟩] else [])) ∧
    (∀ (t : CurrentTurn) (txt : Str), t.user ≠ [] →
      (textStep t ⟨none, some txt, false, none, none, false⟩).2 =
        (if trimStr t.user ≠ [] then
          [⟨Speaker.user, filterProfanity (trimStr t.user), none⟩] else [])) := by
  refine ⟨filterProfanity_eq_specFilter, ?_, ?_⟩
  · intro t m htc hin hout hsrc
    cases m
    simp_all [textStep]
  · intro t txt hu
    simp [textStep, hu]

/-- Witness for C8: a concrete turn completion records the filtered user
text and the verbatim model text. -/
theorem profanity_filter_pipeline_witness :
    (textStep ⟨" Darn it ".toList, " ok ".toList, []⟩
        ⟨none, none, true, none, none, false⟩).2 =
      (if trimStr " Darn it ".toList ≠ [] then
        [⟨Speaker.user, filterProfanity (trimStr " Darn it ".toList), none⟩] else []) ++
      (if " ok ".toList ≠ ([] : Str) then
        [⟨Speaker.model, " ok ".toList, some ([] : List GroundingChunk)⟩] else []) :=
  profanity_filter_pipeline.2.1 ⟨" Darn it ".toList, " ok ".toList, []⟩
    ⟨none, none, true, none, none, false⟩ rfl rfl rfl rfl

/-! ## Claim C2 -/

/-- The predicate `hasNonWs` distributes over append. -/
theorem hasNonWs_append (a b : Str) :
    hasNonWs (a ++ b) = (hasNonWs a || hasNonWs b) := by
  rw [hasNonWs, hasNonWs, hasNonWs, List.any_append]

/-- The predicate `hasNonWs` of a flattened run list is the disjunction over runs. -/
theorem hasNonWs_flatten (rs : List Str) :
    hasNonWs rs.flatten = rs.any hasNonWs := by
  induction rs with
  | nil => rfl
  | cons r rs' ih =>
    rw [List.flatten_cons, hasNonWs_append, ih, List.any_cons]

/-- The profanity filter preserves the existence of a non-whitespace
character: filtered runs are replaced by asterisks (non-whitespace), and
only runs of word characters (non-whitespace) are filtered. -/
theorem hasNonWs_filterProfanity (s : Str) :
    hasNonWs (filterProfanity s) = hasNonWs s := by
  rw [filterProfanity_eq_specFilter, specFilter, hasNonWs_flatten]
  have hpt : ∀ r ∈ runsOf s,
      hasNonWs (if runMatchesAny SFW_PROFANITY_LIST r
        then List.replicate r.length '*' else r) = hasNonWs r := by
    intro r _
    cases hmr : runMatchesAny SFW_PROFANITY_LIST r
    · rw [if_neg (by simp)]
    · rw [if_pos rfl]
      rw [runMatchesAny, List.any_eq_true] at hmr
      obtain ⟨w, hwmem, hbeq⟩ := hmr
      have hw : WFword w := sfw_list_wf w hwmem
      have heq := eq_of_beq hbeq
      cases r with
      | nil => exact absurd (by simpa using heq.symm) hw.1
      | cons d tl =>
        have hmem : Char.toLower d ∈ w := by
          rw [← heq, List.map_cons]
          exact List.mem_cons_self _ _
        have hbounds := hw.2 (Char.toLower d) hmem
        have hdw : isWordChar d = true :=
          isWordChar_of_toLower d (Char.toLower d) hbounds.1 hbounds.2 rfl
        have hdnw : d.isWhitespace = false := not_whitespace_of_isWordChar d hdw
        rw [show hasNonWs (List.replicate (d :: tl).length '*') = true by
          rw [hasNonWs, List.any_eq_true]
          exact ⟨'*', List.mem_replicate.mpr ⟨by simp, rfl⟩, by decide⟩]
        rw [show hasNonWs (d :: tl) = true by
          rw [hasNonWs, List.any_cons, hdnw]
          simp]
  have hcong : ∀ (l : List Str) (p q : Str → Bool), (∀ r ∈ l, p r = q r) →
      l.any p = l.any q := by
    intro l
    induction l with
    | nil => intro p q _; rfl
    | cons x xs ih =>
      intro p q h
      rw [List.any_cons, List.any_cons, h x (List.mem_cons_self _ _),
        ih p q (fun r hr => h r (List.mem_cons_of_mem _ hr))]
  rw [List.any_map]
  have hrw := hcong (runsOf s)
    (hasNonWs ∘ fun run =>
      if runMatchesAny SFW_PROFANITY_LIST run then List.replicate run.length '*' else run)
    hasNonWs (fun r hr => hpt r hr)
  rw [hrw, ← hasNonWs_flatten, flatten_runsOf]

/-- Dropping leading whitespace does not change whether a non-whitespace
character exists. -/
theorem hasNonWs_dropWhile (l : Str) :
    hasNonWs (l.dropWhile Char.isWhitespace) = hasNonWs l := by
  induction l with
  | nil => rfl
  | cons x xs ih =>
    by_cases hx : Char.isWhitespace x = true
    · rw [List.dropWhile_cons, if_pos hx, ih, hasNonWs, hasNonWs, List.any_cons, hx]
      simp
    · rw [List.dropWhile_cons, if_neg hx]

/-- The predicate `hasNonWs` is invariant under reversal. -/
theorem hasNonWs_reverse (l : Str) : hasNonWs l.reverse = hasNonWs l := by
  rw [hasNonWs, hasNonWs, List.any_reverse]

/-- Trimming does not change whether a non-whitespace character
exists. -/
theorem hasNonWs_trimStr (s : Str) : hasNonWs (trimStr s) = hasNonWs s := by
  rw [trimStr, hasNonWs_reverse, hasNonWs_dropWhile, hasNonWs_reverse,
    hasNonWs_dropWhile]

/-- A string trims to empty exactly when it is all whitespace. -/
theorem trimStr_eq_nil_iff (s : Str) : trimStr s = [] ↔ hasNonWs s = false := by
  constructor
  · intro h
    rw [← hasNonWs_trimStr s, h]
    rfl
  · intro h
    have hall : ∀ x ∈ s, Char.isWhitespace x = true := by
      intro x hx
      cases hxw : Char.isWhitespace x
      · exfalso
        have : hasNonWs s = true := by
          rw [hasNonWs, List.any_eq_true]
          exact ⟨x, hx, by rw [hxw]; rfl⟩
        rw [this] at h
        cases h
      · rfl
    rw [trimStr, List.dropWhile_eq_nil_iff.mpr hall]
    rfl

/-- Counterexample for C2 as stated: after the events [partial-output
"  "] and [turn-complete], the aggregator records a model Turn whose text
is the two-space string — a Turn with empty trimmed text. -/
theorem model_turn_whitespace_recorded :
    (runText emptyTurn
        [⟨none, some "  ".toList, false, none, none, false⟩,
         ⟨none, none, true, none, none, false⟩]).2 =
      [⟨Speaker.model, "  ".toList, some []⟩] ∧
    trimStr "  ".toList = [] := by
  constructor
  · rfl
  · rfl

/-- Non-empty trimmed input stays non-empty after filtering: the filter
only exchanges word characters for asterisks. -/
theorem trim_filter_ne_nil (u : Str) (hu : trimStr u ≠ []) :
    trimStr (filterProfanity (trimStr u)) ≠ [] := by
  rw [Ne, trimStr_eq_nil_iff, hasNonWs_filterProfanity, hasNonWs_trimStr]
  rw [Ne, trimStr_eq_nil_iff] at hu
  exact hu

/-- C2 (amended): every user Turn the aggregator appends has non-empty
trimmed text (whitespace-only pending user text is discarded), while a
model Turn is appended whenever the pending model string is non-empty —
including when it is whitespace-only, in which case it is recorded
verbatim. -/
theorem textStep_entry_nonempty (t : CurrentTurn) (m : ServerMessage) :
    ∀ e ∈ (textStep t m).2,
      (e.speaker = Speaker.user → trimStr e.text ≠ []) ∧
      (e.speaker = Speaker.model → e.text ≠ []) := by
  rcases t with ⟨tu, tm, ts⟩
  rcases m with ⟨mi, mo, mtc, msrc, maud, mint⟩
  intro e he
  cases msrc <;> cases mo <;> cases mi <;> cases mtc <;> by_cases htu : tu = []
  all_goals
    simp only [textStep, htu, Option.isSome_some, Option.isSome_none, ne_eq,
      Bool.false_eq_true, eq_self_iff_true, not_true_eq_false, not_false_eq_true,
      true_and, false_and, and_true, and_false,
      if_true, if_false, List.append_nil, List.nil_append] at he
  all_goals
    (repeat' first
      | (rw [List.mem_append] at he; rcases he with he | he)
      | split at he)
  all_goals try dsimp only
  all_goals
    (first
      | (rw [List.mem_singleton] at he; subst he
         first
           | exact ⟨fun _ => trim_filter_ne_nil _ (by assumption), fun hsp => nomatch hsp⟩
           | exact ⟨(fun hsp => nomatch hsp), fun _ => by assumption⟩)
      | exact absurd he (List.not_mem_nil _))

/-- Witness for C2 (amended): on a concrete turn completion with pending
user text "hi", the appended user entry has non-empty trimmed text. -/
theorem textStep_entry_nonempty_witness :
    (⟨Speaker.user, filterProfanity (trimStr "hi".toList), none⟩ : TranscriptEntry) ∈
        (textStep ⟨"hi".toList, [], []⟩ ⟨none, none, true, none, none, false⟩).2 ∧
    trimStr (filterProfanity (trimStr "hi".toList)) ≠ [] := by
  have hmem : (⟨Speaker.user, filterProfanity (trimStr "hi".toList), none⟩ : TranscriptEntry) ∈
      (textStep ⟨"hi".toList, [], []⟩ ⟨none, none, true, none, none, false⟩).2 := by
    simp [textStep]
    decide
  refine ⟨hmem, ?_⟩
  have h := textStep_entry_nonempty ⟨"hi".toList, [], []⟩
    ⟨none, none, true, none, none, false⟩ _ hmem
  exact h.1 rfl
